import Mathlib

/-!
# Destructive-change filter of `main.go`

A shallow embedding of `filterDestructive` and `destructive` (and of the
diff/apply sequence of `main`) together with the properties stated about them.

Two views of `filterDestructive` are given.

* `filterDestructive` works on change trees given as values.  It describes what a
  caller reads from the slice the Go function returns.
* `Mem.filterDestructive` works on a store of objects addressed by pointers, the
  way the Go function does: it overwrites the `Changes` field of the
  `*schema.ModifySchema` / `*schema.ModifyTable` objects it visits and returns the
  pointers it keeps.  `Mem.filterDestructive_refines` relates the two.

A Go slice is a list here; the `nil` slice and the empty slice are both `[]`.
-/

namespace EncoreCharlie

/-! ## Data model -/

/-- The fields of a change object other than its `Changes` slice (for instance the
schema of a `ModifySchema`, the table of a `ModifyTable`, the column of a
`DropColumn`).  `main.go` never reads or writes them, so any type would do. -/
abbrev Fields := Nat

/-- Modelled from the spec: the change types are declared in the Atlas `schema`
package, which is not among the sources.  These are the dynamic types a
`schema.Change` can have besides `*schema.ModifySchema` and `*schema.ModifyTable`:
the seven `Drop` types `destructive` names, and the add and modify changes of the
objects the data model lists (schema, table, column, index, foreign key, check,
attribute).  None of them has a `Changes` field.  `unknown n` stands for any
further dynamic type (the `nil` interface included). -/
inductive LeafKind
  | AddSchema | DropSchema
  | AddTable | DropTable
  | AddColumn | DropColumn | ModifyColumn
  | AddIndex | DropIndex | ModifyIndex
  | AddForeignKey | DropForeignKey | ModifyForeignKey
  | AddCheck | DropCheck | ModifyCheck
  | AddAttr | DropAttr | ModifyAttr
  | unknown (n : Nat)
  deriving DecidableEq

/-- The tag (dynamic type) of a `schema.Change`. -/
inductive Kind
  | ModifySchema
  | ModifyTable
  | leaf (k : LeafKind)
  deriving DecidableEq

/-- A change tree: `schema.Change` read as a value.  Only `ModifySchema` and
`ModifyTable` carry a `Changes` slice. -/
inductive Change
  | ModifySchema (S : Fields) (Changes : List Change)
  | ModifyTable (T : Fields) (Changes : List Change)
  | leaf (kind : LeafKind) (fields : Fields)

/-- The tag of a change. -/
def Change.kind : Change → Kind
  | .ModifySchema _ _ => .ModifySchema
  | .ModifyTable _ _ => .ModifyTable
  | .leaf k _ => .leaf k

/-- The fields of a change other than `Changes`. -/
def Change.fields : Change → Fields
  | .ModifySchema s _ => s
  | .ModifyTable t _ => t
  | .leaf _ f => f

/-- The `Changes` slice of a `ModifySchema` / `ModifyTable`; other changes have none. -/
def Change.children : Change → List Change
  | .ModifySchema _ cs => cs
  | .ModifyTable _ cs => cs
  | .leaf _ _ => []

/-- The seven tags listed in the `case` of `destructive`. -/
def destructiveKinds : List Kind :=
  [.leaf .DropSchema, .leaf .DropTable, .leaf .DropIndex, .leaf .DropCheck,
   .leaf .DropAttr, .leaf .DropForeignKey, .leaf .DropColumn]

/-! ## The two functions, on change trees -/

/-- `destructive` of `main.go`: a type switch with one `case` returning `true`. -/
def destructive : Change → Bool
  | .leaf .DropSchema _ | .leaf .DropTable _ | .leaf .DropIndex _ | .leaf .DropCheck _
  | .leaf .DropAttr _ | .leaf .DropForeignKey _ | .leaf .DropColumn _ => true
  | _ => false

mutual
/-- `filterDestructive` of `main.go`: walk `source` in order, skip a destructive
change, otherwise run the type switch on it and append it to `keep`. -/
def filterDestructive : List Change → List Change
  | [] => []
  | change :: source =>
    if destructive change then filterDestructive source
    else filterChange change :: filterDestructive source
/-- The type switch in the loop body of `filterDestructive`: a `ModifySchema` or
`ModifyTable` gets `Changes` replaced by the filtered `Changes`; any other change
is left as it is. -/
def filterChange : Change → Change
  | .ModifySchema s cs => .ModifySchema s (filterDestructive cs)
  | .ModifyTable t cs => .ModifyTable t (filterDestructive cs)
  | .leaf k f => .leaf k f
end

mutual
/-- Every change of a sequence at every nesting depth: the elements themselves and,
for each `ModifySchema` / `ModifyTable` among them, every change of its `Changes`. -/
def allChanges : List Change → List Change
  | [] => []
  | c :: cs => c :: (nestedChanges c ++ allChanges cs)
/-- Every change nested, at any depth, in the `Changes` of a change. -/
def nestedChanges : Change → List Change
  | .ModifySchema _ cs => allChanges cs
  | .ModifyTable _ cs => allChanges cs
  | .leaf _ _ => []
end


/-! ## The two functions, on a store of objects

`schema.Change` is an interface whose values are pointers, and
`c.Changes = filterDestructive(c.Changes)` assigns to a field of the object `c`
points to.  The definitions below keep that: a change is a reference, objects live
in a store, and `filterDestructive` threads the store through the loop. -/

namespace Mem

/-- A `schema.Change` interface value: its dynamic type and the address of the
object it points to. -/
structure Ref where
  kind : Kind
  addr : Nat
  deriving DecidableEq

/-- The object at an address.  `Changes` is the field of that name of a
`ModifySchema` / `ModifyTable`; it is not consulted for any other type. -/
structure Obj where
  fields : Fields
  Changes : List Ref
  deriving DecidableEq

/-- The store: the object at each allocated address. -/
abbrev Store := Nat → Option Obj

/-- The assignment `c.Changes = cs` for the object at address `a`: that field of
that object is overwritten, nothing else. -/
def setChanges (σ : Store) (a : Nat) (cs : List Ref) : Store :=
  fun b => if b = a then (σ b).map (fun o => { o with Changes := cs }) else σ b

/-- `destructive` of `main.go`: a type switch on the dynamic type of the value. -/
def destructive (change : Ref) : Bool :=
  match change.kind with
  | .leaf .DropSchema | .leaf .DropTable | .leaf .DropIndex | .leaf .DropCheck
  | .leaf .DropAttr | .leaf .DropForeignKey | .leaf .DropColumn => true
  | _ => false

/-- The statement `c.Changes = filterDestructive(c.Changes)` for the object at
address `a`, with the recursive call passed in as `call`: the object is read
(`none` when the address holds no object), `call` is run on its `Changes`, and the
result is assigned to its `Changes`. -/
def assignFiltered (call : Store → List Ref → Option (List Ref × Store))
    (σ : Store) (a : Nat) : Option Store :=
  match σ a with
  | none => none
  | some c =>
    match call σ c.Changes with
    | none => none
    | some (cs, σ1) => some (setChanges σ1 a cs)

/-- The type switch in the loop body of `filterDestructive`. -/
def switchChange (call : Store → List Ref → Option (List Ref × Store))
    (σ : Store) (change : Ref) : Option Store :=
  match change.kind with
  | .ModifySchema => assignFiltered call σ change.addr
  | .ModifyTable => assignFiltered call σ change.addr
  | .leaf _ => some σ

/-- The loop of `filterDestructive`, with the recursive call passed in as `call`:
a destructive change is skipped; any other change goes through the type switch and
is kept, in order. -/
def filterLoop (call : Store → List Ref → Option (List Ref × Store)) :
    Store → List Ref → Option (List Ref × Store)
  | σ, [] => some ([], σ)
  | σ, change :: source =>
    if destructive change then filterLoop call σ source
    else
      match switchChange call σ change with
      | none => none
      | some σ1 =>
        match filterLoop call σ1 source with
        | none => none
        | some (keep, σ2) => some (change :: keep, σ2)

/-- `filterDestructive` of `main.go` on a store.  The first argument bounds the
depth of the nested calls; `none` means the bound was reached or a pointer that had
to be followed refers to no object. -/
def filterDestructive : Nat → Store → List Ref → Option (List Ref × Store)
  | 0 => fun _ _ => none
  | depth + 1 => filterLoop (filterDestructive depth)

/-- Read each reference of a sequence with `rd`; fails when one of them fails. -/
def readList (rd : Ref → Option Change) : List Ref → Option (List Change)
  | [] => some []
  | r :: rs =>
    match rd r, readList rd rs with
    | some c, some cs => some (c :: cs)
    | _, _ => none

/-- The change tree a reference stands for in a store, followed to at most the
given depth: `none` when an object is missing or the structure is deeper than the
bound (as a cyclic one is, for every bound). -/
def readChange : Nat → Store → Ref → Option Change
  | 0, _, _ => none
  | depth + 1, σ, r =>
    match σ r.addr with
    | none => none
    | some o =>
      match r.kind with
      | .ModifySchema => (readList (readChange depth σ) o.Changes).map (Change.ModifySchema o.fields)
      | .ModifyTable => (readList (readChange depth σ) o.Changes).map (Change.ModifyTable o.fields)
      | .leaf k => some (Change.leaf k o.fields)

/-- The change trees a sequence of references stands for in a store. -/
def readChanges (depth : Nat) (σ : Store) (x : List Ref) : Option (List Change) :=
  readList (readChange depth σ) x

/-- A reference to a `ModifySchema` or a `ModifyTable`. -/
def Ref.composite (r : Ref) : Bool :=
  match r.kind with
  | .leaf _ => false
  | _ => true

/-- The addresses of the `ModifySchema` / `ModifyTable` objects that can be reached
from a sequence: those of the sequence, and those reached through the `Changes`
of one of them. -/
inductive Touched (σ : Store) : List Ref → Nat → Prop
  | here {x : List Ref} {r : Ref} : r ∈ x → r.composite = true → Touched σ x r.addr
  | step {x : List Ref} {r : Ref} {o : Obj} {a : Nat} :
      r ∈ x → r.composite = true → σ r.addr = some o → Touched σ o.Changes a → Touched σ x a

/-- An object with its `Changes` restricted to the non-destructive references. -/
def Obj.filtered (o : Obj) : Obj :=
  { o with Changes := o.Changes.filter (fun r => !destructive r) }

/-- A small store: a `ModifyTable` at address 0 whose `Changes` are an `AddColumn`
at address 1 and a `DropColumn` at address 2. -/
def exampleStore : Store
  | 0 => some { fields := 7, Changes := [⟨.leaf .AddColumn, 1⟩, ⟨.leaf .DropColumn, 2⟩] }
  | 1 => some { fields := 8, Changes := [] }
  | 2 => some { fields := 9, Changes := [] }
  | _ => none

/-- `PartlyFiltered σ0 σ`: every object of `σ` is the object `σ0` has at that
address, or that object with its `Changes` restricted to the non-destructive
references. -/
def PartlyFiltered (σ0 σ : Store) : Prop :=
  ∀ a, σ a = σ0 a ∨ σ a = (σ0 a).map Obj.filtered

/-- What a call of the filter does, stated against a store `σ0` whose sequences
read as trees of depth at most `m`, when it runs in a store `σ` that is `σ0`
partly filtered: it returns the non-destructive references of the sequence, in
order; every reachable `ModifySchema` / `ModifyTable` object ends up as its `σ0`
object with `Changes` filtered; every other object is as it was in `σ`. -/
def CallSpec (σ0 : Store) (m : Nat)
    (call : Store → List Ref → Option (List Ref × Store)) : Prop :=
  ∀ σ x ts, PartlyFiltered σ0 σ → readChanges m σ0 x = some ts →
    ∃ σ2, call σ x = some (x.filter (fun r => !destructive r), σ2) ∧
      (∀ a, Touched σ0 x a → σ2 a = (σ0 a).map Obj.filtered) ∧
      (∀ a, ¬ Touched σ0 x a → σ2 a = σ a)

end Mem

/-! ## The diff and apply steps of `main` -/

/-- The two driver methods `main` calls from the comment `Calculate the diff` to
the call of `ApplyChanges`.  They belong to the Atlas library, so they are taken
as given functions; each may fail. -/
structure Driver (Realm : Type) where
  RealmDiff : Realm → Realm → Except String (List Change)
  ApplyChanges : List Change → Except String Unit

/-- What these steps of `main` do that can be observed from outside: a call of
`driver.ApplyChanges` with its argument, and `log.Fatal`. -/
inductive Event
  | ApplyChanges (changes : List Change)
  | Fatal (msg : String)

/-- The part of `main` from `driver.RealmDiff(existing, &desired)` to
`driver.ApplyChanges(ctx, diff)`, given the realms the earlier steps produced.
The block between the two calls is a comment in `main.go` and so contributes
nothing. -/
def main {Realm : Type} (driver : Driver Realm) (existing desired : Realm) : List Event :=
  match driver.RealmDiff existing desired with
  | .error e => [.Fatal e]
  | .ok diff =>
    match driver.ApplyChanges diff with
    | .error e => [.ApplyChanges diff, .Fatal e]
    | .ok _ => [.ApplyChanges diff]

/-- The arguments of the `ApplyChanges` calls of a run, in order. -/
def appliedChanges : List Event → List (List Change)
  | [] => []
  | .ApplyChanges changes :: es => changes :: appliedChanges es
  | .Fatal _ :: es => appliedChanges es

/-- A driver whose diff is always the given sequence and whose apply succeeds. -/
def constDriver (diff : List Change) : Driver Unit where
  RealmDiff := fun _ _ => .ok diff
  ApplyChanges := fun _ => .ok ()

/-! ## Properties of the functions on change trees -/

theorem filterDestructive_nil : filterDestructive [] = [] := by
  simp [filterDestructive]

theorem filterDestructive_cons (c : Change) (cs : List Change) :
    filterDestructive (c :: cs) =
      if destructive c then filterDestructive cs else filterChange c :: filterDestructive cs := by
  simp [filterDestructive]

theorem filterDestructive_eq_map_filter (x : List Change) :
    filterDestructive x = (x.filter (fun c => !destructive c)).map filterChange := by
  induction x with
  | nil => simp [filterDestructive]
  | cons c cs ih =>
    rw [filterDestructive_cons]
    cases h : destructive c <;> simp [h, ih]

theorem filterDestructive_append (x y : List Change) :
    filterDestructive (x ++ y) = filterDestructive x ++ filterDestructive y := by
  simp [filterDestructive_eq_map_filter]

theorem destructive_iff_kind (c : Change) :
    destructive c = true ↔ c.kind ∈ destructiveKinds := by
  cases c with
  | ModifySchema s cs => simp [destructive, Change.kind, destructiveKinds]
  | ModifyTable t cs => simp [destructive, Change.kind, destructiveKinds]
  | leaf k f => cases k <;> simp [destructive, Change.kind, destructiveKinds]

theorem kind_filterChange (c : Change) : (filterChange c).kind = c.kind := by
  cases c <;> simp [filterChange, Change.kind]

theorem fields_filterChange (c : Change) : (filterChange c).fields = c.fields := by
  cases c <;> simp [filterChange, Change.fields]

theorem destructive_filterChange (c : Change) :
    destructive (filterChange c) = destructive c := by
  cases c <;> simp [filterChange, destructive]

mutual
theorem filterDestructive_idem : ∀ x : List Change,
    filterDestructive (filterDestructive x) = filterDestructive x
  | [] => by simp [filterDestructive]
  | c :: cs => by
    rw [filterDestructive_cons]
    cases h : destructive c
    · simp only [Bool.false_eq_true, if_false]
      rw [filterDestructive_cons, destructive_filterChange, h]
      simp only [Bool.false_eq_true, if_false]
      rw [filterChange_idem c, filterDestructive_idem cs]
    · simp only [if_true]
      exact filterDestructive_idem cs
theorem filterChange_idem : ∀ c : Change, filterChange (filterChange c) = filterChange c
  | .ModifySchema s cs => by
    simp only [filterChange]
    rw [filterDestructive_idem cs]
  | .ModifyTable t cs => by
    simp only [filterChange]
    rw [filterDestructive_idem cs]
  | .leaf k f => by simp [filterChange]
end

mutual
theorem allChanges_filterDestructive : ∀ (x : List Change) (c : Change),
    c ∈ allChanges (filterDestructive x) → destructive c = false
  | [], c, hc => by simp [filterDestructive, allChanges] at hc
  | d :: ds, c, hc => by
    rw [filterDestructive_cons] at hc
    cases h : destructive d
    · simp only [h, Bool.false_eq_true, if_false, allChanges, List.mem_cons,
        List.mem_append] at hc
      rcases hc with rfl | hc | hc
      · rw [destructive_filterChange, h]
      · exact nestedChanges_filterChange d c hc
      · exact allChanges_filterDestructive ds c hc
    · simp only [h, if_true] at hc
      exact allChanges_filterDestructive ds c hc
theorem nestedChanges_filterChange : ∀ (d c : Change),
    c ∈ nestedChanges (filterChange d) → destructive c = false
  | .ModifySchema s cs, c, hc => by
    simp only [filterChange, nestedChanges] at hc
    exact allChanges_filterDestructive cs c hc
  | .ModifyTable t cs, c, hc => by
    simp only [filterChange, nestedChanges] at hc
    exact allChanges_filterDestructive cs c hc
  | .leaf k f, c, hc => by simp [filterChange, nestedChanges] at hc
end

/-! ## Properties of the functions on a store -/

namespace Mem

theorem destructive_eq_false_of_composite {r : Ref} (h : r.composite = true) :
    destructive r = false := by
  cases r with
  | mk k a => cases k <;> simp_all [Ref.composite, destructive]

theorem Obj.filtered_filtered (o : Obj) : o.filtered.filtered = o.filtered := by
  simp [Obj.filtered, List.filter_filter]

theorem filterLoop_nil (call : Store → List Ref → Option (List Ref × Store)) (σ : Store) :
    filterLoop call σ [] = some ([], σ) := by
  simp [filterLoop]

theorem filterLoop_cons (call : Store → List Ref → Option (List Ref × Store)) (σ : Store)
    (r : Ref) (rs : List Ref) :
    filterLoop call σ (r :: rs) =
      if destructive r then filterLoop call σ rs
      else
        match switchChange call σ r with
        | none => none
        | some σ1 =>
          match filterLoop call σ1 rs with
          | none => none
          | some (keep, σ2) => some (r :: keep, σ2) := by
  simp [filterLoop]

theorem readList_cons (rd : Ref → Option Change) (r : Ref) (rs : List Ref) (ts : List Change) :
    readList rd (r :: rs) = some ts ↔
      ∃ t ts', rd r = some t ∧ readList rd rs = some ts' ∧ ts = t :: ts' := by
  simp only [readList]
  cases h1 : rd r <;> cases h2 : readList rd rs <;> simp [eq_comm]

theorem readList_filter (rd : Ref → Option Change) (p : Ref → Bool) (x : List Ref)
    (ts : List Change) (h : readList rd x = some ts) :
    ∃ ts', readList rd (x.filter p) = some ts' := by
  induction x generalizing ts with
  | nil => exact ⟨[], by simp [readList]⟩
  | cons r rs ih =>
    obtain ⟨t, ts', h1, h2, -⟩ := (readList_cons rd r rs ts).1 h
    obtain ⟨us, hus⟩ := ih ts' h2
    by_cases hp : p r = true
    · refine ⟨t :: us, ?_⟩
      rw [List.filter_cons_of_pos hp]
      exact (readList_cons _ _ _ _).2 ⟨t, us, h1, hus, rfl⟩
    · refine ⟨us, ?_⟩
      rw [List.filter_cons_of_neg hp]
      exact hus

/-! ### Reachable objects -/

theorem touched_nil (σ : Store) (a : Nat) : ¬ Touched σ [] a := by
  intro h
  cases h with
  | here hm _ => simp at hm
  | step hm _ _ _ => simp at hm

theorem touched_mono {σ : Store} {x y : List Ref} {a : Nat} (hxy : ∀ r, r ∈ x → r ∈ y)
    (h : Touched σ x a) : Touched σ y a := by
  cases h with
  | here hm hc => exact Touched.here (hxy _ hm) hc
  | step hm hc ho ht => exact Touched.step (hxy _ hm) hc ho ht

theorem touched_cons_leaf {σ : Store} {r : Ref} {rs : List Ref} {a : Nat}
    (hr : r.composite = false) : Touched σ (r :: rs) a ↔ Touched σ rs a := by
  constructor
  · intro h
    cases h with
    | here hm hc =>
      rcases List.mem_cons.1 hm with rfl | hm
      · simp [hr] at hc
      · exact Touched.here hm hc
    | step hm hc ho ht =>
      rcases List.mem_cons.1 hm with rfl | hm
      · simp [hr] at hc
      · exact Touched.step hm hc ho ht
  · exact touched_mono (fun _ h => List.mem_cons_of_mem _ h)

theorem touched_cons_composite {σ : Store} {r : Ref} {rs : List Ref} {o : Obj} {a : Nat}
    (hr : r.composite = true) (ho : σ r.addr = some o) :
    Touched σ (r :: rs) a ↔ a = r.addr ∨ Touched σ o.Changes a ∨ Touched σ rs a := by
  constructor
  · intro h
    cases h with
    | here hm hc =>
      rcases List.mem_cons.1 hm with rfl | hm
      · exact Or.inl rfl
      · exact Or.inr (Or.inr (Touched.here hm hc))
    | step hm hc ho2 ht =>
      rcases List.mem_cons.1 hm with rfl | hm
      · rw [ho] at ho2
        cases ho2
        exact Or.inr (Or.inl ht)
      · exact Or.inr (Or.inr (Touched.step hm hc ho2 ht))
  · rintro (rfl | h | h)
    · exact Touched.here (List.mem_cons_self _ _) hr
    · exact Touched.step (List.mem_cons_self _ _) hr ho h
    · exact touched_mono (fun _ h => List.mem_cons_of_mem _ h) h

theorem touched_filter {σ : Store} {x : List Ref} {a : Nat} :
    Touched σ (x.filter (fun r => !destructive r)) a ↔ Touched σ x a := by
  constructor
  · exact touched_mono (fun r hr => (List.mem_filter.1 hr).1)
  · intro h
    cases h with
    | here hm hc =>
      exact Touched.here (List.mem_filter.2 ⟨hm, by simp [destructive_eq_false_of_composite hc]⟩) hc
    | step hm hc ho ht =>
      exact Touched.step (List.mem_filter.2 ⟨hm, by simp [destructive_eq_false_of_composite hc]⟩)
        hc ho ht

/-! ### The loop against its specification -/

theorem switchChange_leaf (call : Store → List Ref → Option (List Ref × Store)) (σ : Store)
    {r : Ref} (hr : r.composite = false) : switchChange call σ r = some σ := by
  cases r with
  | mk k a => cases k <;> simp_all [Ref.composite, switchChange]

theorem switchChange_composite (call : Store → List Ref → Option (List Ref × Store))
    (σ : Store) {r : Ref} (hr : r.composite = true) :
    switchChange call σ r = assignFiltered call σ r.addr := by
  cases r with
  | mk k a => cases k <;> simp_all [Ref.composite, switchChange]

theorem readChange_children {m : Nat} {σ : Store} {r : Ref} {o : Obj} {t : Change}
    (hr : r.composite = true) (ho : σ r.addr = some o)
    (h : readChange (m + 1) σ r = some t) :
    ∃ cts, readChanges m σ o.Changes = some cts ∧ t.kind = r.kind ∧ t.fields = o.fields ∧
      t.children = cts := by
  cases r with
  | mk k a =>
    simp only at ho
    cases k with
    | ModifySchema =>
      simp only [readChange, ho, Option.map_eq_some'] at h
      obtain ⟨cts, h1, rfl⟩ := h
      exact ⟨cts, h1, rfl, rfl, rfl⟩
    | ModifyTable =>
      simp only [readChange, ho, Option.map_eq_some'] at h
      obtain ⟨cts, h1, rfl⟩ := h
      exact ⟨cts, h1, rfl, rfl, rfl⟩
    | leaf k => simp [Ref.composite] at hr

theorem readChange_allocated {m : Nat} {σ : Store} {r : Ref} {t : Change}
    (h : readChange m σ r = some t) : ∃ o, σ r.addr = some o := by
  cases m with
  | zero => simp [readChange] at h
  | succ m =>
    cases ho : σ r.addr with
    | none => simp [readChange, ho] at h
    | some o => exact ⟨o, rfl⟩

theorem filterLoop_spec {σ0 : Store} {m : Nat}
    {call : Store → List Ref → Option (List Ref × Store)} (hcall : CallSpec σ0 m call) :
    CallSpec σ0 (m + 1) (filterLoop call) := by
  intro σ x
  induction x generalizing σ with
  | nil =>
    intro ts _ _
    exact ⟨σ, by simp [filterLoop], fun a h => absurd h (touched_nil _ _), fun a _ => rfl⟩
  | cons r rs ih =>
    intro ts hσ hread
    obtain ⟨t, ts', hr, hrs, -⟩ := (readList_cons _ r rs ts).1 hread
    rw [filterLoop_cons]
    obtain ⟨o0, ho0⟩ := readChange_allocated hr
    by_cases hc : r.composite = true
    · -- a ModifySchema / ModifyTable
      have hd : destructive r = false := destructive_eq_false_of_composite hc
      obtain ⟨cts, hcts, -, -, -⟩ := readChange_children hc ho0 hr
      -- the object as the current store has it
      have hobj : ∃ o, σ r.addr = some o ∧ o.fields = o0.fields ∧
          o.Changes.filter (fun r => !destructive r)
            = o0.Changes.filter (fun r => !destructive r) ∧
          (∃ cts2, readChanges m σ0 o.Changes = some cts2) ∧
          (∀ a, Touched σ0 o.Changes a ↔ Touched σ0 o0.Changes a) := by
        rcases hσ r.addr with h | h
        · exact ⟨o0, by rw [h, ho0], rfl, rfl, ⟨cts, hcts⟩, fun a => Iff.rfl⟩
        · refine ⟨o0.filtered, by rw [h, ho0]; rfl, rfl, ?_, ?_, ?_⟩
          · simp [Obj.filtered, List.filter_filter]
          · exact readList_filter _ _ _ cts hcts
          · intro a
            exact touched_filter
      obtain ⟨o, ho, hfields, hfilt, ⟨cts2, hcts2⟩, htouch⟩ := hobj
      obtain ⟨σ1, hcall1, hT1, hT2⟩ := hcall σ o.Changes cts2 hσ hcts2
      have hassign : switchChange call σ r
          = some (setChanges σ1 r.addr (o.Changes.filter (fun r => !destructive r))) := by
        rw [switchChange_composite call σ hc]
        simp [assignFiltered, ho, hcall1]
      have hσ1r : σ1 r.addr = some o ∨ σ1 r.addr = some o0.filtered := by
        by_cases ht : Touched σ0 o.Changes r.addr
        · right
          rw [hT1 _ ht, ho0]
          rfl
        · left
          rw [hT2 _ ht, ho]
      have hσ2r : setChanges σ1 r.addr (o.Changes.filter (fun r => !destructive r)) r.addr
          = some o0.filtered := by
        rcases hσ1r with h | h
        · simp [setChanges, h, Obj.filtered, hfields, hfilt]
        · simp [setChanges, h, Obj.filtered, hfilt]
      have hσ2o : ∀ a, a ≠ r.addr →
          setChanges σ1 r.addr (o.Changes.filter (fun r => !destructive r)) a = σ1 a := by
        intro a ha
        simp [setChanges, ha]
      have hσ2 : PartlyFiltered σ0
          (setChanges σ1 r.addr (o.Changes.filter (fun r => !destructive r))) := by
        intro a
        by_cases ha : a = r.addr
        · subst ha
          right
          rw [hσ2r, ho0]
          rfl
        · rw [hσ2o a ha]
          by_cases ht : Touched σ0 o.Changes a
          · exact Or.inr (hT1 a ht)
          · rw [hT2 a ht]
            exact hσ a
      obtain ⟨σ3, hloop, hU1, hU2⟩ := ih _ ts' hσ2 hrs
      refine ⟨σ3, ?_, ?_, ?_⟩
      · simp [hd, hassign, hloop]
      · intro a ha
        by_cases hrs2 : Touched σ0 rs a
        · exact hU1 a hrs2
        · rw [hU2 a hrs2]
          rcases (touched_cons_composite hc ho0).1 ha with rfl | h | h
          · rw [hσ2r, ho0]
            rfl
          · by_cases ha2 : a = r.addr
            · subst ha2
              rw [hσ2r, ho0]
              rfl
            · rw [hσ2o a ha2]
              exact hT1 a ((htouch a).2 h)
          · exact absurd h hrs2
      · intro a ha
        have hne : a ≠ r.addr := fun h => ha ((touched_cons_composite hc ho0).2 (Or.inl h))
        have hnc : ¬ Touched σ0 o.Changes a := fun h =>
          ha ((touched_cons_composite hc ho0).2 (Or.inr (Or.inl ((htouch a).1 h))))
        have hnr : ¬ Touched σ0 rs a := fun h =>
          ha ((touched_cons_composite hc ho0).2 (Or.inr (Or.inr h)))
        rw [hU2 a hnr, hσ2o a hne, hT2 a hnc]
    · -- any other change
      have hcf : r.composite = false := by simpa using hc
      obtain ⟨σ3, hloop, hU1, hU2⟩ := ih σ ts' hσ hrs
      refine ⟨σ3, ?_, ?_, ?_⟩
      · by_cases hd : destructive r = true
        · simp [hd, hloop]
        · simp [hd, switchChange_leaf call σ hcf, hloop]
      · intro a ha
        exact hU1 a ((touched_cons_leaf hcf).1 ha)
      · intro a ha
        exact hU2 a (fun h => ha ((touched_cons_leaf hcf).2 h))

theorem filterDestructive_spec (σ0 : Store) (n : Nat) :
    CallSpec σ0 n (filterDestructive (n + 1)) := by
  induction n with
  | zero =>
    intro σ x ts _ hread
    cases x with
    | nil =>
      exact ⟨σ, by simp [filterDestructive, filterLoop],
        fun a h => absurd h (touched_nil _ _), fun a _ => rfl⟩
    | cons r rs =>
      obtain ⟨t, ts', hr, -, -⟩ := (readList_cons _ r rs ts).1 hread
      simp [readChange] at hr
  | succ n ih =>
    exact filterLoop_spec ih

/-! ### Reading the store after the call -/

theorem readChange_kind {n : Nat} {σ : Store} {r : Ref} {t : Change}
    (h : readChange n σ r = some t) : t.kind = r.kind := by
  cases n with
  | zero => simp [readChange] at h
  | succ n =>
    obtain ⟨o, ho⟩ := readChange_allocated h
    cases r with
    | mk k a =>
      simp only at ho
      cases k with
      | ModifySchema =>
        simp only [readChange, ho, Option.map_eq_some'] at h
        obtain ⟨cts, -, rfl⟩ := h
        rfl
      | ModifyTable =>
        simp only [readChange, ho, Option.map_eq_some'] at h
        obtain ⟨cts, -, rfl⟩ := h
        rfl
      | leaf k =>
        simp only [readChange, ho, Option.some.injEq] at h
        subst h
        rfl

theorem destructive_eq_of_kind {t : Change} {r : Ref} (h : t.kind = r.kind) :
    EncoreCharlie.destructive t = destructive r := by
  cases r with
  | mk k a =>
    cases t with
    | ModifySchema s cs =>
      simp only [Change.kind] at h
      subst h
      rfl
    | ModifyTable s cs =>
      simp only [Change.kind] at h
      subst h
      rfl
    | leaf j f =>
      simp only [Change.kind] at h
      subst h
      cases j <;> rfl

theorem readList_filter_destructive {rd : Ref → Option Change} {x : List Ref}
    {ts : List Change} (hk : ∀ r t, rd r = some t → t.kind = r.kind)
    (h : readList rd x = some ts) :
    readList rd (x.filter (fun r => !destructive r))
      = some (ts.filter (fun c => !EncoreCharlie.destructive c)) := by
  induction x generalizing ts with
  | nil =>
    simp only [readList, Option.some.injEq] at h
    subst h
    simp [readList]
  | cons r rs ih =>
    obtain ⟨t, ts', h1, h2, rfl⟩ := (readList_cons rd r rs ts).1 h
    have hd := destructive_eq_of_kind (hk r t h1)
    cases hr : destructive r
    · have ht : EncoreCharlie.destructive t = false := by rw [hd, hr]
      simp only [hr, ht, Bool.not_false, List.filter_cons_of_pos]
      exact (readList_cons _ _ _ _).2 ⟨t, _, h1, ih h2, rfl⟩
    · have ht : EncoreCharlie.destructive t = true := by rw [hd, hr]
      simp only [hr, ht, Bool.not_true, Bool.false_eq_true, not_false_eq_true,
        List.filter_cons_of_neg]
      exact ih h2

theorem readChanges_after {σ0 σ2 : Store} (hpf : PartlyFiltered σ0 σ2) :
    ∀ (n : Nat) (x : List Ref) (ts : List Change),
      (∀ a, Touched σ0 x a → σ2 a = (σ0 a).map Obj.filtered) →
      readChanges n σ0 x = some ts →
      readChanges n σ2 x = some (ts.map filterChange) := by
  intro n
  induction n with
  | zero =>
    intro x ts _ hread
    cases x with
    | nil =>
      simp only [readChanges, readList, Option.some.injEq] at hread
      subst hread
      simp [readChanges, readList]
    | cons r rs =>
      obtain ⟨t, ts', hr, -, -⟩ := (readList_cons _ r rs ts).1 hread
      simp [readChange] at hr
  | succ n ihn =>
    intro x
    induction x with
    | nil =>
      intro ts _ hread
      simp only [readChanges, readList, Option.some.injEq] at hread
      subst hread
      simp [readChanges, readList]
    | cons r rs ih =>
      intro ts htouch hread
      obtain ⟨t, ts', hr, hrs, rfl⟩ := (readList_cons _ r rs ts).1 hread
      have hrest := ih ts' (fun a ha =>
        htouch a (touched_mono (fun _ h => List.mem_cons_of_mem _ h) ha)) hrs
      refine (readList_cons _ _ _ _).2 ⟨filterChange t, ts'.map filterChange, ?_, hrest, rfl⟩
      obtain ⟨o0, ho0⟩ := readChange_allocated hr
      by_cases hc : r.composite = true
      · obtain ⟨cts, hcts, hkind, hfields, hchildren⟩ := readChange_children hc ho0 hr
        have h2 : σ2 r.addr = some o0.filtered := by
          rw [htouch r.addr (Touched.here (List.mem_cons_self _ _) hc), ho0]
          rfl
        have hcs : readChanges n σ2 o0.Changes = some (cts.map filterChange) :=
          ihn o0.Changes cts (fun a ha =>
            htouch a (Touched.step (List.mem_cons_self _ _) hc ho0 ha)) hcts
        have hcs2 := readList_filter_destructive (fun r t h => readChange_kind h) hcs
        have hfd : (cts.map filterChange).filter (fun c => !EncoreCharlie.destructive c)
            = EncoreCharlie.filterDestructive cts := by
          rw [filterDestructive_eq_map_filter, List.filter_map]
          congr 1
          apply List.filter_congr
          intro c _
          simp [destructive_filterChange]
        rw [hfd] at hcs2
        cases r with
        | mk k a =>
          simp only at ho0 h2
          cases t with
          | ModifySchema s cs =>
            simp only [Change.kind] at hkind
            subst hkind
            simp only [Change.fields, Change.children] at hfields hchildren
            subst hfields hchildren
            simp only [readChange, h2, filterChange]
            simp only [Obj.filtered, hcs2, Option.map_some']
          | ModifyTable s cs =>
            simp only [Change.kind] at hkind
            subst hkind
            simp only [Change.fields, Change.children] at hfields hchildren
            subst hfields hchildren
            simp only [readChange, h2, filterChange]
            simp only [Obj.filtered, hcs2, Option.map_some']
          | leaf j f =>
            simp only [Change.kind] at hkind
            subst hkind
            simp [Ref.composite] at hc
      · have hcf : r.composite = false := by simpa using hc
        cases r with
        | mk k a =>
          simp only at ho0
          cases k with
          | ModifySchema => simp [Ref.composite] at hcf
          | ModifyTable => simp [Ref.composite] at hcf
          | leaf j =>
            simp only [readChange, ho0, Option.some.injEq] at hr
            subst hr
            rcases hpf a with h | h
            · simp [readChange, h, ho0, filterChange]
            · simp [readChange, h, ho0, filterChange, Obj.filtered]

/-- The store function refines the function on trees: from a store in which the
sequence reads as trees of depth at most `n`, the call with depth `n + 1` returns;
the kept references are the non-destructive ones of the sequence; they read, in
the resulting store, as the filtered trees; the sequence itself then reads as the
input trees with each element put through the type switch; and the resulting
store is the initial one with exactly the reachable `ModifySchema` /
`ModifyTable` objects having their `Changes` filtered. -/
theorem filterDestructive_refines (n : Nat) (σ : Store) (x : List Ref) (ts : List Change)
    (h : readChanges n σ x = some ts) :
    ∃ σ2, filterDestructive (n + 1) σ x = some (x.filter (fun r => !destructive r), σ2) ∧
      readChanges n σ2 (x.filter (fun r => !destructive r))
        = some (EncoreCharlie.filterDestructive ts) ∧
      readChanges n σ2 x = some (ts.map filterChange) ∧
      (∀ a, Touched σ x a → σ2 a = (σ a).map Obj.filtered) ∧
      (∀ a, ¬ Touched σ x a → σ2 a = σ a) := by
  obtain ⟨σ2, hrun, hT1, hT2⟩ := filterDestructive_spec σ n σ x ts (fun a => Or.inl rfl) h
  have hpf : PartlyFiltered σ σ2 := by
    intro a
    by_cases ha : Touched σ x a
    · exact Or.inr (hT1 a ha)
    · exact Or.inl (hT2 a ha)
  have hafter := readChanges_after hpf n x ts hT1 h
  refine ⟨σ2, hrun, ?_, hafter, hT1, hT2⟩
  have hkeep := readList_filter_destructive (fun r t h => readChange_kind h) hafter
  refine hkeep.trans ?_
  rw [filterDestructive_eq_map_filter, List.filter_map]
  congr 2
  apply List.filter_congr
  intro c _
  simp [destructive_filterChange]

/-! ### A larger depth bound changes nothing -/

theorem filterLoop_mono {call call2 : Store → List Ref → Option (List Ref × Store)}
    (h : ∀ σ x res, call σ x = some res → call2 σ x = some res) :
    ∀ (x : List Ref) (σ : Store) (res : List Ref × Store),
      filterLoop call σ x = some res → filterLoop call2 σ x = some res := by
  intro x
  induction x with
  | nil =>
    intro σ res hres
    simpa [filterLoop] using hres
  | cons r rs ih =>
    intro σ res hres
    rw [filterLoop_cons] at hres ⊢
    by_cases hd : destructive r = true
    · rw [if_pos hd] at hres ⊢
      exact ih σ res hres
    · rw [if_neg hd] at hres ⊢
      cases hs : switchChange call σ r with
      | none => simp [hs] at hres
      | some σ1 =>
        have hs2 : switchChange call2 σ r = some σ1 := by
          cases r with
          | mk k a =>
            cases k with
            | leaf j => simpa [switchChange] using hs
            | ModifySchema =>
              simp only [switchChange, assignFiltered] at hs ⊢
              cases ho : σ a with
              | none => simp [ho] at hs
              | some o =>
                simp only [ho] at hs ⊢
                cases hc : call σ o.Changes with
                | none => simp [hc] at hs
                | some p => simpa [h σ o.Changes p hc, hc] using hs
            | ModifyTable =>
              simp only [switchChange, assignFiltered] at hs ⊢
              cases ho : σ a with
              | none => simp [ho] at hs
              | some o =>
                simp only [ho] at hs ⊢
                cases hc : call σ o.Changes with
                | none => simp [hc] at hs
                | some p => simpa [h σ o.Changes p hc, hc] using hs
        simp only [hs, hs2] at hres ⊢
        cases hl : filterLoop call σ1 rs with
        | none => simp [hl] at hres
        | some p => simpa [ih σ1 p hl, hl] using hres

theorem filterDestructive_succ (d : Nat) (σ : Store) (x : List Ref) (res : List Ref × Store)
    (h : filterDestructive d σ x = some res) : filterDestructive (d + 1) σ x = some res := by
  induction d generalizing σ x res with
  | zero => simp [filterDestructive] at h
  | succ d ih =>
    simp only [filterDestructive] at h ⊢
    exact filterLoop_mono (fun σ x res hres => by simpa [filterDestructive] using ih σ x res hres)
      x σ res h

theorem filterDestructive_mono {d e : Nat} (hde : d ≤ e) (σ : Store) (x : List Ref)
    (res : List Ref × Store) (h : filterDestructive d σ x = some res) :
    filterDestructive e σ x = some res := by
  induction hde with
  | refl => exact h
  | step _ ih => exact filterDestructive_succ _ σ x res ih

end Mem
/-! ## The stated properties -/

/-- C1. Completeness of removal: no change of `filterDestructive x`, at the top
level or at any depth inside the `Changes` of its `ModifySchema` / `ModifyTable`
nodes, has one of the seven destructive tags. -/
theorem filterDestructive_removes_all (x : List Change) (c : Change)
    (hc : c ∈ allChanges (filterDestructive x)) : c.kind ∉ destructiveKinds := by
  intro hk
  have h1 := (destructive_iff_kind c).2 hk
  rw [allChanges_filterDestructive x c hc] at h1
  exact Bool.false_ne_true h1

theorem filterDestructive_removes_all_witness :
    Change.leaf .AddColumn 3 ∈ allChanges (filterDestructive
        [.ModifySchema 0 [.leaf .DropTable 1, .ModifyTable 2 [.leaf .AddColumn 3,
          .leaf .DropColumn 4]]]) ∧
      (Change.leaf .AddColumn 3).kind ∉ destructiveKinds :=
  have hmem : Change.leaf .AddColumn 3 ∈ allChanges (filterDestructive
      [.ModifySchema 0 [.leaf .DropTable 1, .ModifyTable 2 [.leaf .AddColumn 3,
        .leaf .DropColumn 4]]]) := by
    simp [filterDestructive, filterChange, destructive, allChanges, nestedChanges]
  ⟨hmem, filterDestructive_removes_all _ _ hmem⟩

/-- C2. Subsequence and order preservation: the elements of `filterDestructive x`
match, one to one and in order, the non-destructive elements of `x`, which form a
subsequence of `x`; each has the tag and the fields of the element it comes from,
and that tag is not destructive.  On `[AddTable, DropColumn, AddColumn]` the
result is `[AddTable, AddColumn]`. -/
theorem filterDestructive_subsequence (x : List Change) :
    (x.filter (fun c => !destructive c)).Sublist x ∧
    List.Forall₂ (fun o i => o.kind = i.kind ∧ o.fields = i.fields ∧ o = filterChange i ∧
        o.kind ∉ destructiveKinds)
      (filterDestructive x) (x.filter (fun c => !destructive c)) ∧
    (∀ f g h : Fields,
      filterDestructive [.leaf .AddTable f, .leaf .DropColumn g, .leaf .AddColumn h]
        = [.leaf .AddTable f, .leaf .AddColumn h]) := by
  refine ⟨List.filter_sublist x, ?_, ?_⟩
  · rw [filterDestructive_eq_map_filter]
    have key : ∀ l : List Change, (∀ c ∈ l, destructive c = false) →
        List.Forall₂ (fun o i => o.kind = i.kind ∧ o.fields = i.fields ∧ o = filterChange i ∧
          o.kind ∉ destructiveKinds) (l.map filterChange) l := by
      intro l
      induction l with
      | nil => intro _; exact List.Forall₂.nil
      | cons c cs ih =>
        intro hl
        refine List.Forall₂.cons ⟨kind_filterChange c, fields_filterChange c, rfl, ?_⟩
          (ih (fun d hd => hl d (List.mem_cons_of_mem _ hd)))
        intro hk
        rw [kind_filterChange] at hk
        have h1 := (destructive_iff_kind c).2 hk
        rw [hl c (List.mem_cons_self _ _)] at h1
        exact Bool.false_ne_true h1
    apply key
    intro c hc
    simpa using (List.mem_filter.1 hc).2
  · intro f g h
    rfl

/-- C3. Idempotence: filtering a filtered sequence changes nothing, at any depth. -/
theorem filterDestructive_idempotent (x : List Change) :
    filterDestructive (filterDestructive x) = filterDestructive x :=
  filterDestructive_idem x

/-- C5. Classification: `destructive c` is `true` exactly when the tag of `c` is one
of the seven listed kinds, `false` for every `Add`/`Modify` kind and every unknown
kind, and it is the same for two changes with the same tag. -/
theorem destructive_classification (c : Change) :
    (destructive c = true ↔
      c.kind = .leaf .DropSchema ∨ c.kind = .leaf .DropTable ∨ c.kind = .leaf .DropIndex ∨
      c.kind = .leaf .DropCheck ∨ c.kind = .leaf .DropAttr ∨
      c.kind = .leaf .DropForeignKey ∨ c.kind = .leaf .DropColumn) ∧
    (destructive c = false ↔ c.kind ∉ destructiveKinds) ∧
    (∀ n f, destructive (.leaf (.unknown n) f) = false) ∧
    (∀ d : Change, d.kind = c.kind → destructive d = destructive c) := by
  refine ⟨?_, ?_, ?_, ?_⟩
  · rw [destructive_iff_kind]
    simp [destructiveKinds]
  · rw [← destructive_iff_kind]
    simp
  · intro n f
    rfl
  · intro d hd
    have h1 := destructive_iff_kind d
    have h2 := destructive_iff_kind c
    rw [hd] at h1
    cases hdd : destructive d <;> cases hdc : destructive c <;> simp_all

/-- C6. Composite recursion: a `ModifySchema` or `ModifyTable` at any position of
`x` appears in the result, between the filtered elements before it and the filtered
elements after it, as a node of the same kind with the same fields whose `Changes`
is `filterDestructive` of its `Changes`.  The two scenarios of the specification are
instances. -/
theorem filterDestructive_composite (before after cs : List Change) (f : Fields) :
    filterDestructive (before ++ Change.ModifySchema f cs :: after)
      = filterDestructive before ++
          Change.ModifySchema f (filterDestructive cs) :: filterDestructive after ∧
    filterDestructive (before ++ Change.ModifyTable f cs :: after)
      = filterDestructive before ++
          Change.ModifyTable f (filterDestructive cs) :: filterDestructive after ∧
    (∀ t a d : Fields,
      filterDestructive [.ModifyTable t [.leaf .AddColumn a, .leaf .DropColumn d]]
        = [.ModifyTable t [.leaf .AddColumn a]]) ∧
    (∀ s d t a : Fields,
      filterDestructive [.ModifySchema s [.leaf .DropTable d, .ModifyTable t [.leaf .AddColumn a]]]
        = [.ModifySchema s [.ModifyTable t [.leaf .AddColumn a]]]) := by
  refine ⟨?_, ?_, ?_, ?_⟩
  · rw [filterDestructive_append, filterDestructive_cons]
    simp [destructive, filterChange]
  · rw [filterDestructive_append, filterDestructive_cons]
    simp [destructive, filterChange]
  · intro t a d
    rfl
  · intro s d t a
    rfl

/-- C7. Leaf pass-through: a sequence whose elements are all leaves with a
non-destructive tag is returned as it is; so is the empty sequence. -/
theorem filterDestructive_leaf_passthrough (x : List Change)
    (hx : ∀ c ∈ x, c.kind ∉ destructiveKinds ∧ c.kind ≠ .ModifySchema ∧ c.kind ≠ .ModifyTable) :
    filterDestructive x = x ∧ filterDestructive [] = [] := by
  refine ⟨?_, filterDestructive_nil⟩
  induction x with
  | nil => exact filterDestructive_nil
  | cons c cs ih =>
    obtain ⟨h1, h2, h3⟩ := hx c (List.mem_cons_self _ _)
    have hd : destructive c = false := by
      cases h : destructive c
      · rfl
      · exact absurd ((destructive_iff_kind c).1 h) h1
    rw [filterDestructive_cons, hd, ih (fun d hd => hx d (List.mem_cons_of_mem _ hd))]
    cases c with
    | ModifySchema s cs => simp [Change.kind] at h2
    | ModifyTable s cs => simp [Change.kind] at h3
    | leaf k f => simp [filterChange]

theorem filterDestructive_leaf_passthrough_witness :
    filterDestructive [.leaf .AddTable 1, .leaf .ModifyColumn 2, .leaf (.unknown 5) 3]
        = [.leaf .AddTable 1, .leaf .ModifyColumn 2, .leaf (.unknown 5) 3] ∧
      filterDestructive [] = [] :=
  filterDestructive_leaf_passthrough _ (by
    intro c hc
    simp only [List.mem_cons, List.mem_singleton, List.not_mem_nil, or_false] at hc
    rcases hc with rfl | rfl | rfl <;> simp [Change.kind, destructiveKinds])

/-- C10. Every non-destructive top-level change survives: the result is exactly the
elements of `x` with a non-destructive tag, in order, each put through the type
switch (so none of them is dropped and no destructive one is kept); its tags are
the non-destructive tags of `x` and its length is their number.  In particular a
`ModifySchema` or `ModifyTable` at any position whose `Changes` are all destructive
is kept, with the same fields and empty `Changes`; `[ModifyTable{[DropColumn]}]`
gives `[ModifyTable{[]}]`, of length 1. -/
theorem filterDestructive_length (x : List Change) :
    (filterDestructive x).length = x.countP (fun c => decide (c.kind ∉ destructiveKinds)) ∧
    filterDestructive x
      = (x.filter (fun c => decide (c.kind ∉ destructiveKinds))).map filterChange ∧
    (filterDestructive x).map Change.kind
      = (x.map Change.kind).filter (fun k => decide (k ∉ destructiveKinds)) ∧
    (∀ c ∈ x, c.kind ∉ destructiveKinds →
      ∃ o ∈ filterDestructive x, o.kind = c.kind ∧ o.fields = c.fields ∧
        o.children = filterDestructive c.children) ∧
    (∀ (before after cs : List Change) (f : Fields),
      x = before ++ Change.ModifyTable f cs :: after →
      (∀ c ∈ cs, c.kind ∈ destructiveKinds) →
      filterDestructive x
        = filterDestructive before ++ Change.ModifyTable f [] :: filterDestructive after) ∧
    (∀ (before after cs : List Change) (f : Fields),
      x = before ++ Change.ModifySchema f cs :: after →
      (∀ c ∈ cs, c.kind ∈ destructiveKinds) →
      filterDestructive x
        = filterDestructive before ++ Change.ModifySchema f [] :: filterDestructive after) ∧
    (∀ t d : Fields,
      filterDestructive [.ModifyTable t [.leaf .DropColumn d]] = [.ModifyTable t []] ∧
      (filterDestructive [.ModifyTable t [.leaf .DropColumn d]]).length = 1) := by
  have hpred : ∀ c : Change,
      (!destructive c) = decide (c.kind ∉ destructiveKinds) := by
    intro c
    have h := destructive_iff_kind c
    cases hd : destructive c <;> simp_all
  have hfilter : x.filter (fun c => !destructive c)
      = x.filter (fun c => decide (c.kind ∉ destructiveKinds)) :=
    List.filter_congr (fun c _ => hpred c)
  have hmain : filterDestructive x
      = (x.filter (fun c => decide (c.kind ∉ destructiveKinds))).map filterChange := by
    rw [filterDestructive_eq_map_filter, hfilter]
  have hempty : ∀ cs : List Change, (∀ c ∈ cs, c.kind ∈ destructiveKinds) →
      filterDestructive cs = [] := by
    intro cs hcs
    rw [filterDestructive_eq_map_filter, List.map_eq_nil_iff, List.filter_eq_nil_iff]
    intro c hc
    simp [(destructive_iff_kind c).2 (hcs c hc)]
  refine ⟨?_, hmain, ?_, ?_, ?_, ?_, fun t d => ⟨rfl, rfl⟩⟩
  · rw [hmain, List.length_map, List.countP_eq_length_filter]
  · rw [hmain, List.map_map, List.filter_map]
    have hk : Change.kind ∘ filterChange = Change.kind := by
      funext c
      exact kind_filterChange c
    rw [hk]
    rfl
  · intro c hc hk
    refine ⟨filterChange c, ?_, kind_filterChange c, fields_filterChange c, ?_⟩
    · rw [hmain]
      exact List.mem_map.2 ⟨c, List.mem_filter.2 ⟨hc, by simpa using hk⟩, rfl⟩
    · cases c <;> simp [filterChange, Change.children, filterDestructive_nil]
  · intro before after cs f hx hcs
    rw [hx, filterDestructive_append, filterDestructive_cons]
    simp [destructive, filterChange, hempty cs hcs]
  · intro before after cs f hx hcs
    rw [hx, filterDestructive_append, filterDestructive_cons]
    simp [destructive, filterChange, hempty cs hcs]

theorem filterDestructive_length_witness :
    filterDestructive [.leaf .DropTable 1,
        .ModifySchema 2 [.leaf .DropTable 3, .leaf .DropIndex 4], .leaf .AddColumn 5]
      = filterDestructive [.leaf .DropTable 1] ++
          Change.ModifySchema 2 [] :: filterDestructive [.leaf .AddColumn 5] ∧
    filterDestructive [.leaf .DropTable 1,
        .ModifySchema 2 [.leaf .DropTable 3, .leaf .DropIndex 4], .leaf .AddColumn 5]
      = [.ModifySchema 2 [], .leaf .AddColumn 5] :=
  ⟨(filterDestructive_length _).2.2.2.2.2.1 [.leaf .DropTable 1] [.leaf .AddColumn 5]
      [.leaf .DropTable 3, .leaf .DropIndex 4] 2 rfl (by
        intro c hc
        simp only [List.mem_cons, List.mem_singleton, List.not_mem_nil, or_false] at hc
        rcases hc with rfl | rfl <;> simp [Change.kind, destructiveKinds]),
   rfl⟩

/-- C9. The filter is not wired into `main`: whenever `RealmDiff` returns a diff
`d`, `ApplyChanges` is called exactly once, with `d` itself; when `d` contains a
destructive change at any depth, that argument differs from `filterDestructive d`. -/
theorem main_applies_unfiltered_diff {Realm : Type} (driver : Driver Realm)
    (existing desired : Realm) (d : List Change)
    (hd : driver.RealmDiff existing desired = .ok d) :
    appliedChanges (main driver existing desired) = [d] ∧
    ((∃ c ∈ allChanges d, destructive c = true) →
      appliedChanges (main driver existing desired) ≠ [filterDestructive d]) := by
  have happ : appliedChanges (main driver existing desired) = [d] := by
    simp only [main, hd]
    cases driver.ApplyChanges d <;> simp [appliedChanges]
  refine ⟨happ, ?_⟩
  rintro ⟨c, hc, hdc⟩ heq
  rw [happ] at heq
  have hfd : filterDestructive d = d := by simpa using heq.symm
  rw [← hfd] at hc
  rw [allChanges_filterDestructive d c hc] at hdc
  exact Bool.false_ne_true hdc

theorem main_applies_unfiltered_diff_witness :
    (constDriver [.leaf .DropTable 1, .ModifyTable 2 [.leaf .DropColumn 3]]).RealmDiff () ()
        = .ok [.leaf .DropTable 1, .ModifyTable 2 [.leaf .DropColumn 3]] ∧
      (appliedChanges (main
          (constDriver [.leaf .DropTable 1, .ModifyTable 2 [.leaf .DropColumn 3]]) () ())
        = [[.leaf .DropTable 1, .ModifyTable 2 [.leaf .DropColumn 3]]] ∧
      ((∃ c ∈ allChanges [.leaf .DropTable 1, .ModifyTable 2 [.leaf .DropColumn 3]],
          destructive c = true) →
        appliedChanges (main
            (constDriver [.leaf .DropTable 1, .ModifyTable 2 [.leaf .DropColumn 3]]) () ())
          ≠ [filterDestructive [.leaf .DropTable 1, .ModifyTable 2 [.leaf .DropColumn 3]]])) :=
  ⟨rfl, main_applies_unfiltered_diff _ () () _ rfl⟩

/-- C8. Totality: when the sequence `x` stands, in the store, for finite change
trees `ts` of depth at most `n`, the call returns for every depth bound above `n`,
without failing, and what it returns reads as `filterDestructive ts`. -/
theorem store_filterDestructive_total (n d : Nat) (σ : Mem.Store) (x : List Mem.Ref)
    (ts : List Change) (hx : Mem.readChanges n σ x = some ts) (hd : n < d) :
    ∃ keep σ2, Mem.filterDestructive d σ x = some (keep, σ2) ∧
      Mem.readChanges n σ2 keep = some (filterDestructive ts) := by
  obtain ⟨σ2, hrun, hkeep, -, -, -⟩ := Mem.filterDestructive_refines n σ x ts hx
  exact ⟨_, σ2, Mem.filterDestructive_mono hd σ x _ hrun, hkeep⟩

theorem store_filterDestructive_total_witness :
    Mem.readChanges 2 Mem.exampleStore [⟨.ModifyTable, 0⟩]
        = some [.ModifyTable 7 [.leaf .AddColumn 8, .leaf .DropColumn 9]] ∧
      2 < 5 ∧
      ∃ keep σ2, Mem.filterDestructive 5 Mem.exampleStore [⟨.ModifyTable, 0⟩]
          = some (keep, σ2) ∧
        Mem.readChanges 2 σ2 keep
          = some (filterDestructive [.ModifyTable 7 [.leaf .AddColumn 8, .leaf .DropColumn 9]]) :=
  ⟨rfl, by decide, store_filterDestructive_total 2 5 Mem.exampleStore _ _ rfl (by decide)⟩

/-- C4, as the code has it.  The call writes to its input: from a store in which
`x` reads as the trees `ts`, it returns the non-destructive references of `x`, and
in the resulting store every `ModifySchema` / `ModifyTable` object reachable from
`x` has its `Changes` restricted to the non-destructive references, every other
object is as before, and `x` reads as `ts` with the `Changes` of each
`ModifySchema` / `ModifyTable` element filtered. -/
theorem store_filterDestructive_effect (n : Nat) (σ : Mem.Store) (x : List Mem.Ref)
    (ts : List Change) (hx : Mem.readChanges n σ x = some ts) :
    ∃ σ2, Mem.filterDestructive (n + 1) σ x
        = some (x.filter (fun r => !Mem.destructive r), σ2) ∧
      (∀ a, Mem.Touched σ x a → σ2 a = (σ a).map Mem.Obj.filtered) ∧
      (∀ a, ¬ Mem.Touched σ x a → σ2 a = σ a) ∧
      Mem.readChanges n σ2 x = some (ts.map filterChange) := by
  obtain ⟨σ2, hrun, -, hafter, hT1, hT2⟩ := Mem.filterDestructive_refines n σ x ts hx
  exact ⟨σ2, hrun, hT1, hT2, hafter⟩

theorem store_filterDestructive_effect_witness :
    Mem.readChanges 2 Mem.exampleStore [⟨.ModifyTable, 0⟩]
        = some [.ModifyTable 7 [.leaf .AddColumn 8, .leaf .DropColumn 9]] ∧
      ∃ σ2, Mem.filterDestructive 3 Mem.exampleStore [⟨.ModifyTable, 0⟩]
          = some ([⟨.ModifyTable, 0⟩].filter (fun r => !Mem.destructive r), σ2) ∧
        (∀ a, Mem.Touched Mem.exampleStore [⟨.ModifyTable, 0⟩] a →
          σ2 a = (Mem.exampleStore a).map Mem.Obj.filtered) ∧
        (∀ a, ¬ Mem.Touched Mem.exampleStore [⟨.ModifyTable, 0⟩] a →
          σ2 a = Mem.exampleStore a) ∧
        Mem.readChanges 2 σ2 [⟨.ModifyTable, 0⟩]
          = some ([Change.ModifyTable 7 [.leaf .AddColumn 8, .leaf .DropColumn 9]].map
              filterChange) :=
  ⟨rfl, store_filterDestructive_effect 2 Mem.exampleStore _ _ rfl⟩

/-- C4, as stated, fails.  On the store with a `ModifyTable` at address 0 whose
`Changes` are an `AddColumn` and a `DropColumn`, the call returns, and afterwards
the object at address 0 (a node of the input) no longer holds its original
`Changes`: the input sequence, which read as
`[ModifyTable{[AddColumn, DropColumn]}]`, now reads as `[ModifyTable{[AddColumn]}]`. -/
theorem store_filterDestructive_overwrites_input :
    ∃ keep σ2, Mem.filterDestructive 2 Mem.exampleStore [⟨.ModifyTable, 0⟩] = some (keep, σ2) ∧
      Mem.exampleStore 0
        = some ⟨7, [⟨.leaf .AddColumn, 1⟩, ⟨.leaf .DropColumn, 2⟩]⟩ ∧
      σ2 0 = some ⟨7, [⟨.leaf .AddColumn, 1⟩]⟩ ∧
      σ2 0 ≠ Mem.exampleStore 0 ∧
      Mem.readChanges 2 Mem.exampleStore [⟨.ModifyTable, 0⟩]
        = some [.ModifyTable 7 [.leaf .AddColumn 8, .leaf .DropColumn 9]] ∧
      Mem.readChanges 2 σ2 [⟨.ModifyTable, 0⟩]
        = some [.ModifyTable 7 [.leaf .AddColumn 8]] :=
  ⟨_, _, rfl, rfl, rfl, by decide, rfl, rfl⟩

end EncoreCharlie
